import Mathlib

/-!
Verification of the incremental Gmail→Docs consolidation engine
(`docs_mode.gs` orchestrator and `docs_utils.js` helpers) against its
specification.  The Apps Script code is shallowly embedded: script
properties become a `Props` record, the Drive/Docs backends become
explicit environments, timestamps are epoch milliseconds (`Int`, with
`0` standing for the stored string `1970-01-01T00:00:00Z`), and a JS
string that may be falsy is modelled as a `String` with `""` falsy.
-/

set_option maxRecDepth 100000

namespace GmailToDocs

/-- A candidate message as exposed by the mail source adapter:
identifier, timestamp (epoch ms), metadata and bodies.  `dateStr` is the
opaque result of `getDate().toString()` used only for rendering. -/
structure Msg where
  id : String
  date : Int
  subject : String
  sender : String
  recip : String
  dateStr : String
  plainBody : String
  htmlBody : String
deriving Repr, DecidableEq

/-- A child element of a document body, covering the element types the
copy loops dispatch on. -/
inductive Elem where
  | para (text : String)
  | listItem (text : String)
  | pageBreak
  | table (rows : List (List String))
  | image
  | other (text : String)
deriving Repr, DecidableEq

/-- A document body is its list of children, top to bottom. -/
abbrev Body := List Elem

def MAX_MESSAGES_PER_RUN : Nat := 200

def RECENT_IDS_LIMIT : Nat := 200

/-- The script properties: `gtd_last_iso` (as epoch ms), the
consolidated doc id, and the serialized recent-id list.  `none` models
an absent (or falsy) property. -/
structure Props where
  lastIso : Option Int
  docId : Option String
  recentIds : Option (List String)
deriving Repr, DecidableEq

/-- `getRecentIds_`: the stored id list, or the empty set. -/
def getRecentIds_ (p : Props) : List String := p.recentIds.getD []

/-- `saveRecentIds_`: `Array.from(set).slice(-RECENT_IDS_LIMIT)` — keep
the last `RECENT_IDS_LIMIT` entries in set-insertion order. -/
def saveRecentIds_ (l : List String) : List String :=
  l.drop (l.length - RECENT_IDS_LIMIT)

/-- `Set.prototype.add`: appends iff not already present (JS sets keep
insertion order and ignore re-insertion). -/
def setAdd (l : List String) (x : String) : List String :=
  if x ∈ l then l else l ++ [x]

/-- Eligibility test of the gather loop:
`m.getDate() > lastDate && !recent.has(m.getId())`. -/
def eligible (lastDate : Int) (recent : List String) (m : Msg) : Bool :=
  decide (lastDate < m.date) && !(recent.contains m.id)

/-- The nested thread/message loop that pushes eligible messages onto
`newMessages`, in source iteration order. -/
def gatherNew (threads : List (List Msg)) (lastDate : Int) (recent : List String) :
    List Msg :=
  threads.foldl (fun acc msgs => acc ++ msgs.filter (eligible lastDate recent)) []

/-- The comparator `(a,b) => b.date - a.date` as a relation: `a` sorts
no later than `b` iff `b.date ≤ a.date`. -/
def msgDesc (a b : Msg) : Prop := b.date ≤ a.date

instance : DecidableRel msgDesc := fun a b =>
  inferInstanceAs (Decidable (b.date ≤ a.date))

instance : IsTotal Msg msgDesc := ⟨fun a b => le_total b.date a.date⟩

instance : IsTrans Msg msgDesc := ⟨fun _ _ _ h1 h2 => le_trans h2 h1⟩

/-- `newMessages.sort((a,b) => b.date - a.date)`: a stable descending
sort by timestamp (JS `Array.prototype.sort` is stable; any stable sort
for the same comparator computes this list). -/
def sortDesc (l : List Msg) : List Msg := List.insertionSort msgDesc l

/-- The selection step of `processMessagesToDoc`: gather eligible
messages from the scanned threads, then sort newest-first. -/
def select (threads : List (List Msg)) (lastDate : Int) (recent : List String) :
    List Msg :=
  sortDesc (gatherNew threads lastDate recent)

theorem gatherNew_eq_filter (threads : List (List Msg)) (w : Int) (r : List String) :
    gatherNew threads w r = threads.flatten.filter (eligible w r) := by
  suffices h : ∀ acc : List Msg,
      threads.foldl (fun acc msgs => acc ++ msgs.filter (eligible w r)) acc
        = acc ++ threads.flatten.filter (eligible w r) by
    simpa [gatherNew] using h []
  induction threads with
  | nil => intro acc; simp
  | cons t ts ih =>
      intro acc
      simp [List.foldl_cons, ih, List.flatten_cons, List.filter_append, List.append_assoc]

theorem mem_select {threads : List (List Msg)} {w : Int} {r : List String} {m : Msg}
    (h : m ∈ select threads w r) : w < m.date ∧ m.id ∉ r := by
  have hperm : List.Perm (select threads w r) (gatherNew threads w r) :=
    List.perm_insertionSort msgDesc _
  have hm : m ∈ gatherNew threads w r := hperm.mem_iff.mp h
  rw [gatherNew_eq_filter] at hm
  have := List.of_mem_filter hm
  simp only [eligible, Bool.and_eq_true, decide_eq_true_eq, Bool.not_eq_true'] at this
  exact ⟨this.1, by simpa using this.2⟩

theorem select_perm (threads : List (List Msg)) (w : Int) (r : List String) :
    List.Perm (select threads w r) (threads.flatten.filter (eligible w r)) := by
  rw [← gatherNew_eq_filter]
  exact List.perm_insertionSort msgDesc _

theorem select_sorted (threads : List (List Msg)) (w : Int) (r : List String) :
    (select threads w r).Sorted msgDesc :=
  List.sorted_insertionSort msgDesc _

theorem filter_orderedInsert_of_date (q : Msg → Bool)
    (hq : ∀ a b : Msg, q a = true → q b = true → a.date = b.date)
    (a : Msg) (L : List Msg) :
    (List.orderedInsert msgDesc a L).filter q
      = if q a then a :: L.filter q else L.filter q := by
  rw [List.orderedInsert_eq_take_drop]
  by_cases ha : q a = true
  · have htake : (L.takeWhile fun b => ¬ msgDesc a b).filter q = [] := by
      rw [List.filter_eq_nil_iff]
      intro b hb
      have hpred := List.mem_takeWhile_imp hb
      simp only [decide_eq_true_eq] at hpred
      intro hqb
      exact hpred (le_of_eq (hq a b ha hqb).symm)
    rw [List.filter_append, htake, List.nil_append, List.filter_cons_of_pos ha]
    have hL : L.filter q = ((L.takeWhile fun b => ¬ msgDesc a b)
        ++ L.dropWhile fun b => ¬ msgDesc a b).filter q := by
      rw [List.takeWhile_append_dropWhile]
    rw [if_pos ha, hL, List.filter_append, htake, List.nil_append]
  · have ha' : q a = false := by simpa using ha
    rw [List.filter_append, List.filter_cons_of_neg (by simp [ha']), if_neg ha]
    have hL : L.filter q = ((L.takeWhile fun b => ¬ msgDesc a b)
        ++ L.dropWhile fun b => ¬ msgDesc a b).filter q := by
      rw [List.takeWhile_append_dropWhile]
    rw [hL, List.filter_append]

theorem filter_insertionSort_of_date (q : Msg → Bool)
    (hq : ∀ a b : Msg, q a = true → q b = true → a.date = b.date) :
    ∀ l : List Msg, (List.insertionSort msgDesc l).filter q = l.filter q := by
  intro l
  induction l with
  | nil => rfl
  | cons a l ih =>
      rw [List.insertionSort, filter_orderedInsert_of_date q hq, ih]
      by_cases ha : q a = true
      · rw [if_pos ha, List.filter_cons_of_pos ha]
      · have ha' : q a = false := by simpa using ha
        rw [if_neg (by simp [ha']), List.filter_cons_of_neg (by simp [ha'])]

/-- C1 -- The selection step returns exactly the messages with
timestamp strictly above the watermark whose id is outside the recency
set, sorted descending by timestamp, with exact-tie groups kept in
source iteration order. -/
theorem C1_selection_correct (threads : List (List Msg)) (w : Int) (r : List String) :
    (∀ m ∈ select threads w r, w < m.date ∧ m.id ∉ r)
    ∧ List.Perm (select threads w r) (threads.flatten.filter (eligible w r))
    ∧ (select threads w r).Sorted msgDesc
    ∧ ∀ t : Int, (select threads w r).filter (fun m => m.date = t)
        = (threads.flatten.filter (eligible w r)).filter (fun m => m.date = t) := by
  refine ⟨fun m hm => mem_select hm, select_perm threads w r,
    select_sorted threads w r, fun t => ?_⟩
  have hq : ∀ a b : Msg, (decide (a.date = t)) = true → (decide (b.date = t)) = true
      → a.date = b.date := by
    intro a b ha hb
    simp only [decide_eq_true_eq] at ha hb
    rw [ha, hb]
  calc (select threads w r).filter (fun m => m.date = t)
      = (gatherNew threads w r).filter (fun m => m.date = t) :=
        filter_insertionSort_of_date _ hq _
    _ = (threads.flatten.filter (eligible w r)).filter (fun m => m.date = t) := by
        rw [gatherNew_eq_filter]

/-- Character-level worker for `split(/\r?\n/)`: a line ends at `\n`,
consuming one `\r` immediately before it; `acc` holds the current line
reversed. -/
def splitLinesAux : List Char → List Char → List String
  | [], acc => [String.mk acc.reverse]
  | '\r' :: '\n' :: rest, acc => String.mk acc.reverse :: splitLinesAux rest []
  | '\n' :: rest, acc => String.mk acc.reverse :: splitLinesAux rest []
  | c :: rest, acc => splitLinesAux rest (c :: acc)

/-- `plain.split(/\r?\n/)`: split on newlines, each optionally preceded
by a carriage return. -/
def splitLines (s : String) : List String :=
  splitLinesAux s.data []

/-- Body text chosen by
`(msg.getPlainBody && msg.getPlainBody()) ? msg.getPlainBody() : (msg.getBody && msg.getBody()) ? msg.getBody() : '(no body)'`. -/
def plainTextOf (m : Msg) : String :=
  if m.plainBody ≠ "" then m.plainBody
  else if m.htmlBody ≠ "" then m.htmlBody
  else "(no body)"

/-- The paragraphs and page break one message contributes to the
temporary batch document in `prependBatchPlain` (the HEADING6 start
marker keeps only its text once copied by `insertParagraph`). -/
def renderPlainMsg (m : Msg) : List Elem :=
  [Elem.para "--- EMAIL START ---",
   Elem.para ("Subject: " ++ (if m.subject = "" then "(no subject)" else m.subject)),
   Elem.para ("From: " ++ m.sender),
   Elem.para ("To: " ++ m.recip),
   Elem.para ("Date: " ++ m.dateStr),
   Elem.para ""]
  ++ (splitLines (plainTextOf m)).map Elem.para
  ++ [Elem.para "--- EMAIL END ---", Elem.pageBreak]

/-- `getText` of an element, `none` when the element has no such
method (an inline image). -/
def getTextOpt : Elem → Option String
  | .para t => some t
  | .listItem t => some t
  | .table rows => some (String.intercalate "\n" (rows.map (String.intercalate "\n")))
  | .pageBreak => some ""
  | .image => none
  | .other t => some t

/-- What one copied child of the temporary document becomes in the main
document: paragraphs, list items and page breaks are re-inserted as
such, anything else falls back to
`insertParagraph(0, child.getText ? child.getText() : '[unsupported element]')`. -/
def copyChildPlain : Elem → Elem
  | .para t => .para t
  | .listItem t => .listItem t
  | .pageBreak => .pageBreak
  | c => .para ((getTextOpt c).getD "[unsupported element]")

/-- The copy loop of `prependBatchPlain`: children of the temporary
body are inserted at index 0 of the main body, iterating from the last
child down to the first. -/
def prependChildren (tmp main : Body) : Body :=
  tmp.reverse.foldl (fun acc c => copyChildPlain c :: acc) main

/-- `prependBatchPlain`: render all messages (assumed newest-first)
into a temporary body, then prepend its children to the main body.
A freshly created document is modelled as an empty body. -/
def prependBatchPlain (messages : List Msg) (main : Body) : Body :=
  prependChildren (messages.flatMap renderPlainMsg) main

theorem prependChildren_eq (tmp main : Body) :
    prependChildren tmp main = tmp.map copyChildPlain ++ main := by
  induction tmp generalizing main with
  | nil => rfl
  | cons c tmp ih =>
      have hstep : prependChildren (c :: tmp) main
          = copyChildPlain c :: prependChildren tmp main := by
        simp [prependChildren, List.foldl_append]
      rw [hstep, ih, List.map_cons, List.cons_append]

theorem copyChildPlain_renderPlainMsg (m : Msg) :
    (renderPlainMsg m).map copyChildPlain = renderPlainMsg m := by
  simp only [renderPlainMsg, List.map_append, List.map_cons, List.map_map,
    List.map_nil, copyChildPlain]
  rfl

theorem map_copy_flatMap_render (batch : List Msg) :
    (batch.flatMap renderPlainMsg).map copyChildPlain
      = batch.flatMap renderPlainMsg := by
  induction batch with
  | nil => rfl
  | cons m ms ih =>
      rw [List.flatMap_cons, List.map_append, copyChildPlain_renderPlainMsg, ih]

/-- C3 -- For a non-empty newest-first batch, `prependBatchPlain`
leaves the destination equal to the rendered batch followed by the
entire prior content, unchanged and in order (so the prior content is a
suffix, below the whole batch, and message renderings keep batch
order). -/
theorem C3_prepend_batch_plain (batch : List Msg) (main : Body)
    (_h : batch ≠ []) :
    prependBatchPlain batch main = batch.flatMap renderPlainMsg ++ main
    ∧ main.IsSuffix (prependBatchPlain batch main) := by
  have key : prependBatchPlain batch main = batch.flatMap renderPlainMsg ++ main := by
    rw [prependBatchPlain, prependChildren_eq, map_copy_flatMap_render]
  exact ⟨key, key ▸ ⟨batch.flatMap renderPlainMsg, rfl⟩⟩

/-- Closed instance of `C3_prepend_batch_plain` at a concrete
one-message batch and non-trivial prior content. -/
theorem C3_prepend_batch_plain_witness :
    prependBatchPlain
        [{ id := "m1", date := 5, subject := "hi", sender := "a@x", recip := "b@y",
           dateStr := "D", plainBody := "line1\nline2", htmlBody := "" }]
        [Elem.para "old"]
      = [Elem.para "--- EMAIL START ---", Elem.para "Subject: hi",
         Elem.para "From: a@x", Elem.para "To: b@y", Elem.para "Date: D",
         Elem.para "", Elem.para "line1", Elem.para "line2",
         Elem.para "--- EMAIL END ---", Elem.pageBreak, Elem.para "old"]
    ∧ [Elem.para "old"].IsSuffix (prependBatchPlain
        [{ id := "m1", date := 5, subject := "hi", sender := "a@x", recip := "b@y",
           dateStr := "D", plainBody := "line1\nline2", htmlBody := "" }]
        [Elem.para "old"]) := by
  have h := C3_prepend_batch_plain
    [{ id := "m1", date := 5, subject := "hi", sender := "a@x", recip := "b@y",
       dateStr := "D", plainBody := "line1\nline2", htmlBody := "" }]
    [Elem.para "old"] (by decide)
  exact ⟨by rw [h.1]; decide, h.2⟩

/-- Result of `DriveApp.getFileById(id)`: the call can raise (not
found / no access), return a falsy value, or return a file that is
trashed or live. -/
inductive Lookup where
  | err
  | missing
  | file (trashed : Bool)
deriving Repr, DecidableEq

/-- The Drive backend as seen by the guarantor: how each id resolves,
and the id `DocumentApp.create` would assign to a newly created doc. -/
structure DriveEnv where
  lookup : String → Lookup
  freshId : String

/-- `ensureConsolidatedDoc_`: keep the persisted id when it resolves to
a live, non-trashed file; otherwise create a new doc, persist its id
and return it.  The `Bool` records whether a creation happened. -/
def ensureConsolidatedDoc_ (env : DriveEnv) (p : Props) : String × Props × Bool :=
  match p.docId with
  | none => (env.freshId, { p with docId := some env.freshId }, true)
  | some id =>
    match env.lookup id with
    | .file false => (id, p, false)
    | _ => (env.freshId, { p with docId := some env.freshId }, true)

/-- The Drive document store, as an association list from doc id to
body; absent ids (including a freshly created empty doc) read as `[]`. -/
abbrev World := List (String × Body)

def worldGet (w : World) (id : String) : Body :=
  match w.find? (fun e => e.1 == id) with
  | some e => e.2
  | none => []

def worldSet (w : World) (id : String) (b : Body) : World :=
  if w.any (fun e => e.1 == id) then
    w.map (fun e => if e.1 == id then (id, b) else e)
  else (id, b) :: w

/-- One escaped character of `escapeHtml` (`&` before `<` before `>`;
the single-pass chained `replace` calls never rescan inserted text, so
the per-character translation is exact). -/
def escapeHtmlChar (c : Char) : List Char :=
  if c = '&' then "&amp;".data
  else if c = '<' then "&lt;".data
  else if c = '>' then "&gt;".data
  else [c]

/-- `escapeHtml`: escape `&`, `<`, `>` in metadata fields. -/
def escapeHtml (s : String) : String :=
  String.mk (s.data.flatMap escapeHtmlChar)

/-- The template-literal header of `prependMessageHtmlToDoc`. -/
def htmlHeader (m : Msg) : String :=
  "\n    <html><head><meta charset=\"utf-8\"></head><body>\n    <div><strong>Subject:</strong> "
    ++ escapeHtml m.subject
    ++ "</div>\n    <div><strong>From:</strong> " ++ escapeHtml m.sender
    ++ "</div>\n    <div><strong>To:</strong> " ++ escapeHtml m.recip
    ++ "</div>\n    <div><strong>Date:</strong> " ++ escapeHtml m.dateStr
    ++ "</div>\n    <hr/>"

/-- `(msg.getBody && msg.getBody()) ? msg.getBody() : escapeHtml(...)`. -/
def htmlBodyOf (m : Msg) : String :=
  if m.htmlBody ≠ "" then m.htmlBody
  else escapeHtml (if m.plainBody ≠ "" then m.plainBody else "(no body)")

def fullHtml (m : Msg) : String :=
  htmlHeader m ++ htmlBodyOf m ++ "</body></html>"

/-- The rich-conversion backend: `convertHtmlToDoc` either raises or
yields the children of the converted document, and each child
insertion into the main body either succeeds or raises with a message
(caught per child). -/
structure HtmlEnv where
  convert : String → Except String Body
  insertErr : Elem → Option String

/-- One iteration of the copy loop of `prependMessageHtmlToDoc`: the
child is inserted at the top of the main body according to its type,
and on failure the catch inserts the `[insert failed: ...]`
placeholder paragraph instead. -/
def insertChildHtml (env : HtmlEnv) (main : Body) (child : Elem) : Body :=
  match env.insertErr child with
  | some e => Elem.para ("[insert failed: " ++ e ++ "]") :: main
  | none =>
    match child with
    | .para t => .para t :: main
    | .listItem t => .listItem t :: main
    | .table rows =>
        rows.map (fun r => Elem.para (String.intercalate "\t" r)) ++ main
    | .pageBreak => .pageBreak :: main
    | .image => .image :: main
    | .other t => .para t :: main

/-- `prependMessageHtmlToDoc`: convert the message HTML to a temporary
doc (propagating a conversion failure as an exception), then copy its
children to the top of the main body, last child first. -/
def prependMessageHtmlToDoc (env : HtmlEnv) (m : Msg) (main : Body) :
    Except String Body :=
  match env.convert (fullHtml m) with
  | .error e => .error e
  | .ok children => .ok (children.reverse.foldl (insertChildHtml env) main)

/-- Outcome of one invocation of `processMessagesToDoc`: the persisted
properties, the Drive store, and the messages whose per-message
insertion succeeded (in processing order) — or the raised error. -/
inductive RunOutcome where
  | ok (props : Props) (world : World) (inserted : List Msg)
  | err (msg : String)
deriving Repr, DecidableEq

/-- State threaded through the `doc_html` per-message loop: main body,
in-memory recent set, `newestSeen`, and the successfully inserted
messages. -/
def htmlStep (henv : HtmlEnv) (st : Body × List String × Int × List Msg)
    (item : Msg) : Body × List String × Int × List Msg :=
  match prependMessageHtmlToDoc henv item st.1 with
  | .error _ => st
  | .ok d2 =>
      (d2, setAdd st.2.1 item.id,
       if st.2.2.1 < item.date then item.date else st.2.2.1,
       st.2.2.2 ++ [item])

/-- The processing-and-persist phase of `processMessagesToDoc` on the
selected batch: early return on an empty batch, dispatch on
`OUTPUT_MODE`, then persist `newestSeen` as the watermark and the
truncated recent-id set. -/
def runBatch (mode : String) (henv : HtmlEnv) (consolidatedDocId : String)
    (props1 : Props) (world : World) (recent : List String) (lastDate : Int) :
    List Msg → RunOutcome
  | [] => .ok props1 world []
  | m0 :: rest =>
    if mode = "doc_plain" then
      let doc' := prependBatchPlain (m0 :: rest) (worldGet world consolidatedDocId)
      let newestSeen := m0.date
      let recent' := (m0 :: rest).foldl (fun r it => setAdd r it.id) recent
      .ok { props1 with lastIso := some newestSeen,
                        recentIds := some (saveRecentIds_ recent') }
          (worldSet world consolidatedDocId doc') (m0 :: rest)
    else if mode = "doc_html" then
      let fold := (m0 :: rest).foldl (htmlStep henv)
        (worldGet world consolidatedDocId, recent, lastDate, [])
      .ok { props1 with lastIso := some fold.2.2.1,
                        recentIds := some (saveRecentIds_ fold.2.1) }
          (worldSet world consolidatedDocId fold.1) fold.2.2.2
    else .err ("Unknown OUTPUT_MODE: " ++ mode)

/-- The batch one run of `processMessagesToDoc` selects: eligible
messages of the first `MAX_MESSAGES_PER_RUN` retrieved threads, against
the stored watermark and recent-id set, newest-first. -/
def selectedBatch (denv : DriveEnv) (allThreads : List (List Msg))
    (props : Props) : List Msg :=
  select (allThreads.take MAX_MESSAGES_PER_RUN) (props.lastIso.getD 0)
    (getRecentIds_ (ensureConsolidatedDoc_ denv props).2.1)

/-- `processMessagesToDoc`, parameterized by the configured
`OUTPUT_MODE`, the Drive and conversion backends, and the full list of
threads carrying the configured label (of which `GmailApp.search`
returns at most `MAX_MESSAGES_PER_RUN`). -/
def processMessagesToDoc (mode : String) (denv : DriveEnv)
    (allThreads : List (List Msg)) (henv : HtmlEnv) (props : Props)
    (world : World) : RunOutcome :=
  runBatch mode henv (ensureConsolidatedDoc_ denv props).1
    (ensureConsolidatedDoc_ denv props).2.1 world
    (getRecentIds_ (ensureConsolidatedDoc_ denv props).2.1)
    (props.lastIso.getD 0)
    (selectedBatch denv allThreads props)

/-- `gtd_resetForReimport`: watermark back to epoch start
(`1970-01-01T00:00:00Z`, i.e. `0` ms), recent-id property deleted, doc
handle untouched. -/
def gtd_resetForReimport (p : Props) : Props :=
  { p with lastIso := some 0, recentIds := none }

theorem ensure_preserves (env : DriveEnv) (p : Props) :
    (ensureConsolidatedDoc_ env p).2.1.lastIso = p.lastIso
    ∧ (ensureConsolidatedDoc_ env p).2.1.recentIds = p.recentIds := by
  rcases p with ⟨li, di, ri⟩
  cases di with
  | none => exact ⟨rfl, rfl⟩
  | some id =>
      simp only [ensureConsolidatedDoc_]
      cases env.lookup id with
      | err => exact ⟨rfl, rfl⟩
      | missing => exact ⟨rfl, rfl⟩
      | file t => cases t <;> exact ⟨rfl, rfl⟩

theorem foldl_max_mem_cons : ∀ (xs : List Int) (x : Int), xs.foldl max x ∈ x :: xs := by
  intro xs
  induction xs with
  | nil => intro x; simp
  | cons y ys ih =>
      intro x
      rcases List.mem_cons.mp (ih (max x y)) with h | h
      · rw [List.foldl_cons, h]
        rcases max_choice x y with hm | hm
        · rw [hm]; exact List.mem_cons_self x _
        · rw [hm]; exact List.mem_cons_of_mem x (List.mem_cons_self y _)
      · rw [List.foldl_cons]
        exact List.mem_cons_of_mem x (List.mem_cons_of_mem y h)

theorem le_foldl_max : ∀ (xs : List Int) (x : Int), x ≤ xs.foldl max x := by
  intro xs
  induction xs with
  | nil => intro x; simp
  | cons y ys ih =>
      intro x
      exact le_trans (le_max_left x y) (ih (max x y))

theorem foldl_max_ge : ∀ (xs : List Int) (x : Int), ∀ z ∈ xs, z ≤ xs.foldl max x := by
  intro xs
  induction xs with
  | nil => intro x z hz; simp at hz
  | cons y ys ih =>
      intro x z hz
      rcases List.mem_cons.mp hz with h | h
      · subst h
        exact le_trans (le_max_right x z) (le_foldl_max ys (max x z))
      · exact ih (max x y) z h

/-- `if ns < d then d else ns` is `max ns d`. -/
theorem ite_lt_max (ns d : Int) : (if ns < d then d else ns) = max ns d := by
  rcases lt_or_ge ns d with h | h
  · rw [if_pos h, max_eq_right (le_of_lt h)]
  · rw [if_neg (not_lt.mpr h), max_eq_left h]

theorem htmlStep_of_error (henv : HtmlEnv) (st : Body × List String × Int × List Msg)
    (item : Msg) (e : String)
    (h : prependMessageHtmlToDoc henv item st.1 = .error e) :
    htmlStep henv st item = st := by
  rw [htmlStep, h]

theorem htmlStep_of_ok (henv : HtmlEnv) (st : Body × List String × Int × List Msg)
    (item : Msg) (d2 : Body)
    (h : prependMessageHtmlToDoc henv item st.1 = .ok d2) :
    htmlStep henv st item
      = (d2, setAdd st.2.1 item.id, max st.2.2.1 item.date, st.2.2.2 ++ [item]) := by
  rw [htmlStep, h, ite_lt_max]

/-- Whether the rich-conversion call succeeds for a message (it
depends only on the message's rendered HTML, not on the document). -/
def convertOk (henv : HtmlEnv) (x : Msg) : Bool :=
  match henv.convert (fullHtml x) with
  | .ok _ => true
  | .error _ => false

/-- The effect of one `doc_html` message on the main body alone: the
copy loop of its converted children on success, no change when the
conversion raises (the catch in `processMessagesToDoc` only logs). -/
def applyHtmlOk (henv : HtmlEnv) (d : Body) (x : Msg) : Body :=
  match henv.convert (fullHtml x) with
  | .ok children => children.reverse.foldl (insertChildHtml henv) d
  | .error _ => d

/-- Invariants of the `doc_html` per-message loop: the successfully
inserted messages `extras` are a sub-list of the batch appended to the
previous ones, `newestSeen` is the running maximum over their dates,
the recent set receives exactly their ids in order, `extras` are
exactly the batch members whose conversion succeeds, and the body is
the fold of the per-message effect. -/
theorem htmlFold_spec (henv : HtmlEnv) :
    ∀ (msgs : List Msg) (d : Body) (r : List String) (ns : Int) (acc : List Msg),
      ∃ extras : List Msg,
        (msgs.foldl (htmlStep henv) (d, r, ns, acc)).2.2.2 = acc ++ extras
        ∧ extras.Sublist msgs
        ∧ (msgs.foldl (htmlStep henv) (d, r, ns, acc)).2.2.1
            = (extras.map Msg.date).foldl max ns
        ∧ (msgs.foldl (htmlStep henv) (d, r, ns, acc)).2.1
            = extras.foldl (fun a m => setAdd a m.id) r
        ∧ extras = msgs.filter (convertOk henv)
        ∧ (msgs.foldl (htmlStep henv) (d, r, ns, acc)).1
            = msgs.foldl (applyHtmlOk henv) d := by
  intro msgs
  induction msgs with
  | nil =>
      intro d r ns acc
      exact ⟨[], by simp, List.Sublist.refl _, by simp, rfl, rfl, rfl⟩
  | cons m ms ih =>
      intro d r ns acc
      cases hpre : prependMessageHtmlToDoc henv m d with
      | error e =>
          have hstep : htmlStep henv (d, r, ns, acc) m = (d, r, ns, acc) :=
            htmlStep_of_error henv _ m e hpre
          have hconvm : henv.convert (fullHtml m) = Except.error e := by
            cases hconv : henv.convert (fullHtml m) with
            | error e' =>
                rw [prependMessageHtmlToDoc, hconv] at hpre
                injection hpre with h
                rw [h]
            | ok ch =>
                rw [prependMessageHtmlToDoc, hconv] at hpre
                exact absurd hpre (by simp)
          have happ : applyHtmlOk henv d m = d := by
            rw [applyHtmlOk, hconvm]
          have hco : convertOk henv m = false := by rw [convertOk, hconvm]
          obtain ⟨extras, h1, h2, h3, h4, h5, h6⟩ := ih d r ns acc
          refine ⟨extras, by rw [List.foldl_cons, hstep]; exact h1,
            h2.cons m, by rw [List.foldl_cons, hstep]; exact h3,
            by rw [List.foldl_cons, hstep]; exact h4, ?_, ?_⟩
          · rw [List.filter_cons_of_neg (by rw [hco]; simp), h5]
          · rw [List.foldl_cons, hstep, h6, List.foldl_cons, happ]
      | ok d2 =>
          have hstep : htmlStep henv (d, r, ns, acc) m
              = (d2, setAdd r m.id, max ns m.date, acc ++ [m]) :=
            htmlStep_of_ok henv _ m d2 hpre
          have hconvm : ∃ ch, henv.convert (fullHtml m) = Except.ok ch
              ∧ ch.reverse.foldl (insertChildHtml henv) d = d2 := by
            cases hconv : henv.convert (fullHtml m) with
            | error e' =>
                rw [prependMessageHtmlToDoc, hconv] at hpre
                exact absurd hpre (by simp)
            | ok ch =>
                rw [prependMessageHtmlToDoc, hconv] at hpre
                injection hpre with h
                exact ⟨ch, rfl, h⟩
          obtain ⟨ch, hch, hchd⟩ := hconvm
          have happ : applyHtmlOk henv d m = d2 := by
            simp only [applyHtmlOk, hch]
            exact hchd
          have hco : convertOk henv m = true := by rw [convertOk, hch]
          obtain ⟨extras, h1, h2, h3, h4, h5, h6⟩ :=
            ih d2 (setAdd r m.id) (max ns m.date) (acc ++ [m])
          refine ⟨m :: extras, ?_, h2.cons₂ m, ?_, ?_, ?_, ?_⟩
          · rw [List.foldl_cons, hstep, h1, List.append_assoc]
            rfl
          · rw [List.foldl_cons, hstep, h3, List.map_cons, List.foldl_cons]
          · rw [List.foldl_cons, hstep, h4, List.foldl_cons]
          · rw [List.filter_cons_of_pos hco, h5]
          · rw [List.foldl_cons, hstep, h6, List.foldl_cons, happ]

/-- Messages whose conversion fails contribute nothing to the body:
the fold equals the fold over the successfully converting messages. -/
theorem applyHtmlOk_filter (henv : HtmlEnv) :
    ∀ (msgs : List Msg) (d : Body),
      msgs.foldl (applyHtmlOk henv) d
        = (msgs.filter (convertOk henv)).foldl (applyHtmlOk henv) d := by
  intro msgs
  induction msgs with
  | nil => intro d; rfl
  | cons m ms ih =>
      intro d
      cases hconv : henv.convert (fullHtml m) with
      | error e =>
          have hco : convertOk henv m = false := by rw [convertOk, hconv]
          have happ : applyHtmlOk henv d m = d := by rw [applyHtmlOk, hconv]
          rw [List.foldl_cons, happ, List.filter_cons_of_neg (by rw [hco]; simp),
            ih]
      | ok ch =>
          have hco : convertOk henv m = true := by rw [convertOk, hconv]
          rw [List.foldl_cons, List.filter_cons_of_pos hco, List.foldl_cons, ih]

/-- C2 -- For every successful run: the persisted watermark never
decreases; when at least one message was actually inserted it equals
the maximum timestamp among the inserted messages; when none were
inserted (empty selection, or a non-empty batch whose insertions all
failed) it keeps its previous value. -/
theorem C2_watermark_advance (mode : String) (denv : DriveEnv)
    (threads : List (List Msg)) (henv : HtmlEnv) (props : Props) (world : World)
    (p' : Props) (w' : World) (ins : List Msg)
    (hrun : processMessagesToDoc mode denv threads henv props world
      = RunOutcome.ok p' w' ins) :
    props.lastIso.getD 0 ≤ p'.lastIso.getD 0
    ∧ (ins ≠ [] → p'.lastIso.getD 0 ∈ ins.map Msg.date
        ∧ ∀ m ∈ ins, m.date ≤ p'.lastIso.getD 0)
    ∧ (ins = [] → p'.lastIso.getD 0 = props.lastIso.getD 0) := by
  rw [processMessagesToDoc] at hrun
  have hpres := ensure_preserves denv props
  cases hsel : selectedBatch denv threads props with
  | nil =>
      rw [hsel, runBatch] at hrun
      injection hrun with hp hw hi
      refine ⟨?_, ?_, ?_⟩
      · rw [← hp, hpres.1]
      · intro h; exact absurd hi.symm h
      · intro _; rw [← hp, hpres.1]
  | cons m0 rest =>
      rw [hsel] at hrun
      have hm0 : m0 ∈ selectedBatch denv threads props := by
        rw [hsel]; exact List.mem_cons_self _ _
      have hm0date : props.lastIso.getD 0 < m0.date :=
        (mem_select (show m0 ∈ select (threads.take MAX_MESSAGES_PER_RUN)
          (props.lastIso.getD 0)
          (getRecentIds_ (ensureConsolidatedDoc_ denv props).2.1) from hm0)).1
      by_cases hmode : mode = "doc_plain"
      · rw [hmode] at hrun
        rw [runBatch, if_pos rfl] at hrun
        injection hrun with hp hw hi
        have hlast : p'.lastIso = some m0.date := by rw [← hp]
        have hsorted : (m0 :: rest).Sorted msgDesc := by
          rw [← hsel]
          exact select_sorted _ _ _
        refine ⟨?_, ?_, ?_⟩
        · rw [hlast]; exact le_of_lt hm0date
        · intro _
          constructor
          · rw [hlast, ← hi]
            exact List.mem_cons_self _ _
          · intro m hm
            rw [hlast]
            rcases List.mem_cons.mp (hi ▸ hm) with h | h
            · simp [h]
            · exact List.rel_of_sorted_cons hsorted m h
        · intro h; rw [← hi] at h; exact absurd h (List.cons_ne_nil m0 rest)
      · by_cases hmode2 : mode = "doc_html"
        · rw [hmode2] at hrun
          rw [runBatch, if_neg (by decide : ¬ ("doc_html" = "doc_plain")),
            if_pos rfl] at hrun
          injection hrun with hp hw hi
          obtain ⟨extras, h1, h2, h3, h4⟩ := htmlFold_spec henv (m0 :: rest)
            (worldGet world (ensureConsolidatedDoc_ denv props).1)
            (getRecentIds_ (ensureConsolidatedDoc_ denv props).2.1)
            (props.lastIso.getD 0) []
          rw [List.nil_append] at h1
          have hins : ins = extras := by rw [← hi, h1]
          have hlast : p'.lastIso = some ((extras.map Msg.date).foldl max
              (props.lastIso.getD 0)) := by rw [← hp]; rw [h3]
          have hgt : ∀ z ∈ extras.map Msg.date, props.lastIso.getD 0 < z := by
            intro z hz
            obtain ⟨m, hm, hmz⟩ := List.mem_map.mp hz
            have : m ∈ select (threads.take MAX_MESSAGES_PER_RUN)
                (props.lastIso.getD 0)
                (getRecentIds_ (ensureConsolidatedDoc_ denv props).2.1) := by
              show m ∈ selectedBatch denv threads props
              rw [hsel]; exact h2.mem hm
            rw [← hmz]
            exact (mem_select this).1
          refine ⟨?_, ?_, ?_⟩
          · rw [hlast]
            exact le_foldl_max _ _
          · intro hne
            have hne' : extras.map Msg.date ≠ [] := by
              rw [hins] at hne
              simpa using hne
            constructor
            · rw [hlast, hins]
              rcases List.mem_cons.mp (foldl_max_mem_cons (extras.map Msg.date)
                  (props.lastIso.getD 0)) with h | h
              · exfalso
                obtain ⟨z, hz⟩ := List.exists_mem_of_ne_nil _ hne'
                have hzle := foldl_max_ge (extras.map Msg.date)
                  (props.lastIso.getD 0) z hz
                rw [h] at hzle
                exact absurd (hgt z hz) (not_lt.mpr hzle)
              · exact h
            · intro m hm
              rw [hlast]
              exact foldl_max_ge _ _ m.date (List.mem_map_of_mem Msg.date
                (hins ▸ hm))
          · intro hz
            rw [hins] at hz
            rw [hlast, hz]
            simp
        · rw [runBatch, if_neg hmode, if_neg hmode2] at hrun
          exact absurd hrun (by simp)

def wMsgA : Msg :=
  { id := "a", date := 5, subject := "s", sender := "f@x", recip := "t@y",
    dateStr := "ds", plainBody := "hello", htmlBody := "" }

def wDenv : DriveEnv := { lookup := fun _ => Lookup.file false, freshId := "F" }

def wHenv : HtmlEnv :=
  { convert := fun _ => Except.error "down", insertErr := fun _ => none }

def wProps : Props := { lastIso := some 0, docId := some "D", recentIds := none }

def wPropsAfterPlain : Props :=
  { lastIso := some 5, docId := some "D", recentIds := some ["a"] }

def wWorldAfterPlain : World := [("D", prependBatchPlain [wMsgA] [])]

/-- Closed instance of `C2_watermark_advance`: a `doc_plain` run over a
single fresh message advances the watermark to that message's
timestamp. -/
theorem C2_watermark_advance_witness :
    wProps.lastIso.getD 0 ≤ wPropsAfterPlain.lastIso.getD 0
    ∧ ([wMsgA] ≠ [] → wPropsAfterPlain.lastIso.getD 0 ∈ [wMsgA].map Msg.date
        ∧ ∀ m ∈ [wMsgA], m.date ≤ wPropsAfterPlain.lastIso.getD 0)
    ∧ ([wMsgA] = [] → wPropsAfterPlain.lastIso.getD 0 = wProps.lastIso.getD 0) :=
  C2_watermark_advance "doc_plain" wDenv [[wMsgA]] wHenv wProps []
    wPropsAfterPlain wWorldAfterPlain [wMsgA] (by decide)

/-- Closed instance of `C1_selection_correct` at a concrete source. -/
theorem C1_selection_correct_witness :
    (∀ m ∈ select [[wMsgA]] 0 [], (0 : Int) < m.date ∧ m.id ∉ ([] : List String))
    ∧ List.Perm (select [[wMsgA]] 0 []) ([[wMsgA]].flatten.filter (eligible 0 []))
    ∧ (select [[wMsgA]] 0 []).Sorted msgDesc
    ∧ ∀ t : Int, (select [[wMsgA]] 0 []).filter (fun m => m.date = t)
        = ([[wMsgA]].flatten.filter (eligible 0 [])).filter (fun m => m.date = t) :=
  C1_selection_correct [[wMsgA]] 0 []

theorem ensure_of_live (env : DriveEnv) (p : Props) (id : String)
    (hid : p.docId = some id) (hlook : env.lookup id = Lookup.file false) :
    ensureConsolidatedDoc_ env p = (id, p, false) := by
  simp [ensureConsolidatedDoc_, hid, hlook]

theorem ensure_docId (env : DriveEnv) (p : Props) :
    (ensureConsolidatedDoc_ env p).2.1.docId = some (ensureConsolidatedDoc_ env p).1 := by
  rcases hdoc : p.docId with _ | j
  · simp [ensureConsolidatedDoc_, hdoc]
  · rcases hlook : env.lookup j with _ | _ | t
    · simp [ensureConsolidatedDoc_, hdoc, hlook]
    · simp [ensureConsolidatedDoc_, hdoc, hlook]
    · cases t
      · simp [ensureConsolidatedDoc_, hdoc, hlook]
      · simp [ensureConsolidatedDoc_, hdoc, hlook]

/-- C6 -- The guarantor keeps a persisted handle that resolves to a
live, non-trashed document; in every other case (no handle, trashed,
lookup raises) it creates a new document, persists its handle and
returns it; and a second call whose environment still resolves the
returned handle live (no external deletion) returns the same handle
with no second creation. -/
theorem C6_guarantor (env env2 : DriveEnv) (p : Props) :
    (∀ id, p.docId = some id → env.lookup id = Lookup.file false →
        ensureConsolidatedDoc_ env p = (id, p, false))
    ∧ ((∀ id, p.docId = some id → env.lookup id ≠ Lookup.file false) →
        ensureConsolidatedDoc_ env p
          = (env.freshId, { p with docId := some env.freshId }, true))
    ∧ (∀ id p1 c1, ensureConsolidatedDoc_ env p = (id, p1, c1) →
        env2.lookup id = Lookup.file false →
        ensureConsolidatedDoc_ env2 p1 = (id, p1, false)) := by
  refine ⟨?_, ?_, ?_⟩
  · intro id hid hlook
    simp [ensureConsolidatedDoc_, hid, hlook]
  · intro hbad
    rcases hdoc : p.docId with _ | id
    · simp [ensureConsolidatedDoc_, hdoc]
    · have hne := hbad id hdoc
      rcases hlook : env.lookup id with _ | _ | t
      · simp [ensureConsolidatedDoc_, hdoc, hlook]
      · simp [ensureConsolidatedDoc_, hdoc, hlook]
      · cases t
        · exact absurd hlook hne
        · simp [ensureConsolidatedDoc_, hdoc, hlook]
  · intro id p1 c1 hens hlive
    have hdoc1 : p1.docId = some id := by
      have hd := ensure_docId env p
      rw [hens] at hd
      exact hd
    simp [ensureConsolidatedDoc_, hdoc1, hlive]

/-- Closed instance of `C6_guarantor`: a live persisted handle is
returned unchanged; with no persisted handle a doc is created and its
handle persisted; the second call then performs no second creation. -/
theorem C6_guarantor_witness :
    ensureConsolidatedDoc_ wDenv wProps = ("D", wProps, false)
    ∧ ensureConsolidatedDoc_ wDenv { lastIso := some 0, docId := none, recentIds := none }
        = ("F", { lastIso := some 0, docId := some "F", recentIds := none }, true)
    ∧ ensureConsolidatedDoc_ wDenv { lastIso := some 0, docId := some "F", recentIds := none }
        = ("F", { lastIso := some 0, docId := some "F", recentIds := none }, false) := by
  have h := C6_guarantor wDenv wDenv wProps
  have h2 := C6_guarantor wDenv wDenv
    { lastIso := some 0, docId := none, recentIds := none }
  refine ⟨h.1 "D" rfl rfl, ?_, ?_⟩
  · exact h2.2.1 (by intro id hid; exact absurd hid (by simp))
  · exact h2.2.2 "F" { lastIso := some 0, docId := some "F", recentIds := none }
      true (h2.2.1 (by intro id hid; exact absurd hid (by simp))) rfl

/-- C8 -- `gtd_resetForReimport` is idempotent, sets the watermark to
epoch start (`1970-01-01T00:00:00Z`, `0` ms), clears the recency set
entirely (the property is deleted, so it reads back empty), and leaves
the destination-document handle untouched. -/
theorem C8_reset (p : Props) :
    gtd_resetForReimport (gtd_resetForReimport p) = gtd_resetForReimport p
    ∧ (gtd_resetForReimport p).lastIso = some 0
    ∧ (gtd_resetForReimport p).recentIds = none
    ∧ getRecentIds_ (gtd_resetForReimport p) = []
    ∧ (gtd_resetForReimport p).docId = p.docId :=
  ⟨rfl, rfl, rfl, rfl, rfl⟩

/-- Counterexample to C5 as stated: with no persisted document handle
and an empty source, zero messages are selected, yet the run persists a
freshly created handle — the document-handle state is not unchanged. -/
theorem C5_counterexample :
    processMessagesToDoc "doc_plain" wDenv [] wHenv
        { lastIso := some 0, docId := none, recentIds := none } []
      = RunOutcome.ok { lastIso := some 0, docId := some "F", recentIds := none } [] []
    ∧ ({ lastIso := some 0, docId := none, recentIds := none } : Props).docId
        ≠ ({ lastIso := some 0, docId := some "F", recentIds := none } : Props).docId := by
  exact ⟨by decide, by decide⟩

/-- C5 amended -- If zero messages are selected, the run is a no-op:
watermark, recency set and destination document are untouched, and the
persisted document handle is also unchanged provided it already
resolves to a live, non-trashed document (otherwise the guarantor may
create and persist a fresh handle before the empty selection is
noticed). -/
theorem C5_empty_selection_noop (mode : String) (denv : DriveEnv)
    (threads : List (List Msg)) (henv : HtmlEnv) (props : Props) (world : World)
    (id : String) (hdoc : props.docId = some id)
    (hlive : denv.lookup id = Lookup.file false)
    (hsel : selectedBatch denv threads props = []) :
    processMessagesToDoc mode denv threads henv props world
      = RunOutcome.ok props world [] := by
  rw [processMessagesToDoc, hsel, ensure_of_live denv props id hdoc hlive, runBatch]

/-- Closed instance of `C5_empty_selection_noop`: live handle, empty
source, run returns the state fully unchanged. -/
theorem C5_empty_selection_noop_witness :
    processMessagesToDoc "doc_plain" wDenv [] wHenv wProps [("D", [Elem.para "x"])]
      = RunOutcome.ok wProps [("D", [Elem.para "x"])] [] :=
  C5_empty_selection_noop "doc_plain" wDenv [] wHenv wProps
    [("D", [Elem.para "x"])] "D" rfl rfl (by decide)

/-- `totalMsgsSeen` of the scan loop: every message of every retrieved
thread is examined; the search cap bounds only the thread count. -/
def messagesConsidered (allThreads : List (List Msg)) : Nat :=
  ((allThreads.take MAX_MESSAGES_PER_RUN).map List.length).sum

/-- A single labeled thread holding 201 messages, with distinct ids
`m1..m201` and strictly descending timestamps `201..1`. -/
def cexThread : List Msg :=
  (List.range 201).map (fun i =>
    { id := "m" ++ toString (201 - i), date := (201 : Int) - (i : Int),
      subject := "s", sender := "f", recip := "t", dateStr := "d",
      plainBody := "b", htmlBody := "" })

/-- Counterexample to C9 as stated: one retrieved thread can carry 201
messages, so 201 messages matching the filter are considered — and all
201 are eligible and selected — in a single invocation, exceeding
`MAX_MESSAGES_PER_RUN = 200`. -/
theorem C9_counterexample :
    messagesConsidered [cexThread] = 201
    ∧ MAX_MESSAGES_PER_RUN < messagesConsidered [cexThread]
    ∧ (select [cexThread] 0 []).length = 201 := by
  refine ⟨by decide, by decide, by decide⟩

/-- C9 amended -- The per-run cap bounds the number of *threads*
scanned, not messages: a run only ever examines the first
`MAX_MESSAGES_PER_RUN` retrieved threads (so the run's outcome equals
the outcome on the truncated thread list, and the scanned thread count
never exceeds the cap), while neither the per-thread message scan nor
the eligible set is truncated. -/
theorem C9_cap_scans_threads (mode : String) (denv : DriveEnv)
    (threads : List (List Msg)) (henv : HtmlEnv) (props : Props) (world : World) :
    processMessagesToDoc mode denv threads henv props world
      = processMessagesToDoc mode denv (threads.take MAX_MESSAGES_PER_RUN)
          henv props world
    ∧ (threads.take MAX_MESSAGES_PER_RUN).length ≤ MAX_MESSAGES_PER_RUN := by
  constructor
  · rw [processMessagesToDoc, processMessagesToDoc, selectedBatch, selectedBatch,
      List.take_take, min_self]
  · exact List.length_take_le _ _

theorem ensure_recent (env : DriveEnv) (p : Props) :
    getRecentIds_ (ensureConsolidatedDoc_ env p).2.1 = getRecentIds_ p := by
  rw [getRecentIds_, getRecentIds_, (ensure_preserves env p).2]

theorem saveRecentIds_length (l : List String) :
    (saveRecentIds_ l).length ≤ RECENT_IDS_LIMIT := by
  rw [saveRecentIds_, List.length_drop]
  rw [RECENT_IDS_LIMIT]
  omega

theorem saveRecentIds_of_le (l : List String) (h : l.length ≤ RECENT_IDS_LIMIT) :
    saveRecentIds_ l = l := by
  rw [saveRecentIds_, Nat.sub_eq_zero_of_le h, List.drop_zero]

theorem mem_setAdd (a : List String) (x y : String) :
    y ∈ setAdd a x ↔ y ∈ a ∨ y = x := by
  rw [setAdd]
  split_ifs with h
  · constructor
    · exact Or.inl
    · rintro (hy | rfl)
      · exact hy
      · exact h
  · simp [List.mem_append]

theorem mem_foldl_setAdd (l : List Msg) :
    ∀ (base : List String) (y : String),
      (y ∈ l.foldl (fun a m => setAdd a m.id) base
        ↔ y ∈ base ∨ ∃ m ∈ l, m.id = y) := by
  induction l with
  | nil => intro base y; simp
  | cons m ms ih =>
      intro base y
      rw [List.foldl_cons, ih, mem_setAdd]
      constructor
      · rintro ((hy | rfl) | ⟨m2, hm2, rfl⟩)
        · exact Or.inl hy
        · exact Or.inr ⟨m, List.mem_cons_self _ _, rfl⟩
        · exact Or.inr ⟨m2, List.mem_cons_of_mem m hm2, rfl⟩
      · rintro (hy | ⟨m2, hm2, rfl⟩)
        · exact Or.inl (Or.inl hy)
        · rcases List.mem_cons.mp hm2 with h2 | h2
          · exact Or.inl (Or.inr (by rw [h2]))
          · exact Or.inr ⟨m2, h2, rfl⟩

/-- C7 amended -- The persisted recency set stays within
`RECENT_IDS_LIMIT` (persisting a truncation, and preserving the bound
across no-op runs); after any successful run with insertions it is the
last-`RECENT_IDS_LIMIT` suffix of the previous set extended with the
inserted ids in insertion order (oldest-added evicted first); and it
contains every inserted message's id whenever that extended set fits
the capacity — with more than `RECENT_IDS_LIMIT` insertions in one run,
ids inserted in the same run are themselves evicted. -/
theorem C7_recency_amended (mode : String) (denv : DriveEnv)
    (threads : List (List Msg)) (henv : HtmlEnv) (props : Props) (world : World)
    (p' : Props) (w' : World) (ins : List Msg)
    (hrun : processMessagesToDoc mode denv threads henv props world
      = RunOutcome.ok p' w' ins) :
    ((getRecentIds_ props).length ≤ RECENT_IDS_LIMIT →
        (getRecentIds_ p').length ≤ RECENT_IDS_LIMIT)
    ∧ (ins ≠ [] → getRecentIds_ p'
        = saveRecentIds_ (ins.foldl (fun a m => setAdd a m.id) (getRecentIds_ props)))
    ∧ ((ins.foldl (fun a m => setAdd a m.id) (getRecentIds_ props)).length
          ≤ RECENT_IDS_LIMIT → ∀ m ∈ ins, m.id ∈ getRecentIds_ p') := by
  rw [processMessagesToDoc] at hrun
  have hrec := ensure_recent denv props
  cases hsel : selectedBatch denv threads props with
  | nil =>
      rw [hsel, runBatch] at hrun
      injection hrun with hp hw hi
      refine ⟨?_, ?_, ?_⟩
      · intro hlen
        rw [← hp, hrec]
        exact hlen
      · intro h; exact absurd hi.symm h
      · intro _ m hm
        rw [← hi] at hm
        exact absurd hm (List.not_mem_nil m)
  | cons m0 rest =>
      rw [hsel] at hrun
      by_cases hmode : mode = "doc_plain"
      · rw [hmode, runBatch, if_pos rfl] at hrun
        injection hrun with hp hw hi
        have hrecs : getRecentIds_ p' = saveRecentIds_
            ((m0 :: rest).foldl (fun a m => setAdd a m.id) (getRecentIds_ props)) := by
          rw [← hp, getRecentIds_]
          simp only [Option.getD_some]
          rw [hrec]
        refine ⟨?_, ?_, ?_⟩
        · intro _
          rw [hrecs]
          exact saveRecentIds_length _
        · intro _
          rw [hrecs, ← hi]
        · intro hle m hm
          rw [← hi] at hle hm
          rw [hrecs, saveRecentIds_of_le _ hle, mem_foldl_setAdd]
          exact Or.inr ⟨m, hm, rfl⟩
      · by_cases hmode2 : mode = "doc_html"
        · rw [hmode2, runBatch, if_neg (by decide : ¬ ("doc_html" = "doc_plain")),
            if_pos rfl] at hrun
          injection hrun with hp hw hi
          obtain ⟨extras, h1, h2, h3, h4, h5, h6⟩ := htmlFold_spec henv
            (m0 :: rest)
            (worldGet world (ensureConsolidatedDoc_ denv props).1)
            (getRecentIds_ (ensureConsolidatedDoc_ denv props).2.1)
            (props.lastIso.getD 0) []
          rw [List.nil_append] at h1
          have hins : ins = extras := by rw [← hi, h1]
          have hrecs : getRecentIds_ p' = saveRecentIds_
              (extras.foldl (fun a m => setAdd a m.id) (getRecentIds_ props)) := by
            rw [← hp, getRecentIds_]
            simp only [Option.getD_some]
            rw [h4, hrec]
          refine ⟨?_, ?_, ?_⟩
          · intro _
            rw [hrecs]
            exact saveRecentIds_length _
          · intro _
            rw [hrecs, hins]
          · intro hle m hm
            rw [hins] at hle hm
            rw [hrecs, saveRecentIds_of_le _ hle, mem_foldl_setAdd]
            exact Or.inr ⟨m, hm, rfl⟩
        · rw [runBatch, if_neg hmode, if_neg hmode2] at hrun
          exact absurd hrun (by simp)

/-- Closed instance of `C7_recency_amended` at a one-message
`doc_plain` run. -/
theorem C7_recency_amended_witness :
    ((getRecentIds_ wProps).length ≤ RECENT_IDS_LIMIT →
        (getRecentIds_ wPropsAfterPlain).length ≤ RECENT_IDS_LIMIT)
    ∧ ([wMsgA] ≠ [] → getRecentIds_ wPropsAfterPlain
        = saveRecentIds_ ([wMsgA].foldl (fun a m => setAdd a m.id)
            (getRecentIds_ wProps)))
    ∧ (([wMsgA].foldl (fun a m => setAdd a m.id) (getRecentIds_ wProps)).length
          ≤ RECENT_IDS_LIMIT → ∀ m ∈ [wMsgA], m.id ∈ getRecentIds_ wPropsAfterPlain) :=
  C7_recency_amended "doc_plain" wDenv [[wMsgA]] wHenv wProps [] wPropsAfterPlain
    wWorldAfterPlain [wMsgA] (by decide)

def cexRun : RunOutcome :=
  processMessagesToDoc "doc_plain" wDenv [cexThread] wHenv
    { lastIso := some 0, docId := some "D", recentIds := none } []

def cexInsertedIds : List String :=
  match cexRun with
  | .ok _ _ ins => ins.map Msg.id
  | .err _ => []

def cexRecentAfter : List String :=
  match cexRun with
  | .ok p _ _ => getRecentIds_ p
  | .err _ => []

set_option maxHeartbeats 10000000 in
/-- Counterexample to C7 as stated: a successful `doc_plain` run over
201 fresh messages inserts all 201 (message `m201` among them), yet the
persisted recency set — truncated to the most recently added 200
entries — does not contain `m201`'s identifier. -/
theorem C7_counterexample :
    "m201" ∈ cexInsertedIds ∧ "m201" ∉ cexRecentAfter := by
  exact ⟨by decide, by decide⟩

/-- C4 amended -- In `doc_html` mode the run never aborts on a
per-message render/insert failure: the run always completes with the
inserted messages being exactly the batch members whose conversion
succeeds (so later messages are still processed and the watermark can
advance for them); a message whose message-level render/insert call
raises is caught and skipped entirely, leaving the document, recency
state and `newestSeen` unchanged at its step — no placeholder is
inserted for it; the `[insert failed: ...]` placeholder appears only
when the insertion of one converted *element* raises, in that
element's place. -/
theorem C4_per_message_failure (denv : DriveEnv) (threads : List (List Msg))
    (henv : HtmlEnv) (props : Props) (world : World) :
    (∃ p' w' ins, processMessagesToDoc "doc_html" denv threads henv props world
        = RunOutcome.ok p' w' ins
        ∧ ins = (selectedBatch denv threads props).filter (convertOk henv))
    ∧ (∀ (st : Body × List String × Int × List Msg) (item : Msg),
        convertOk henv item = false → htmlStep henv st item = st)
    ∧ (∀ (main : Body) (child : Elem) (e : String),
        henv.insertErr child = some e →
        insertChildHtml henv main child
          = Elem.para ("[insert failed: " ++ e ++ "]") :: main) := by
  refine ⟨?_, ?_, ?_⟩
  · rw [processMessagesToDoc]
    cases hsel : selectedBatch denv threads props with
    | nil =>
        refine ⟨(ensureConsolidatedDoc_ denv props).2.1, world, [], ?_, by simp⟩
        rw [runBatch]
    | cons m0 rest =>
        obtain ⟨extras, h1, _, _, _, h5, _⟩ := htmlFold_spec henv (m0 :: rest)
          (worldGet world (ensureConsolidatedDoc_ denv props).1)
          (getRecentIds_ (ensureConsolidatedDoc_ denv props).2.1)
          (props.lastIso.getD 0) []
        rw [List.nil_append] at h1
        refine ⟨_, _, _, rfl, ?_⟩
        rw [h1, h5]
  · intro st item hco
    cases hconv : henv.convert (fullHtml item) with
    | error e =>
        refine htmlStep_of_error henv st item e ?_
        rw [prependMessageHtmlToDoc, hconv]
    | ok ch =>
        rw [convertOk, hconv] at hco
        exact absurd hco (by simp)
  · intro main child e he
    simp only [insertChildHtml, he]

/-- The `doc_html` message whose conversion fails in the
counterexample run (the newest message of the batch). -/
def cexMsgFail : Msg :=
  { id := "f1", date := 2, subject := "bad", sender := "f", recip := "t",
    dateStr := "d2", plainBody := "x", htmlBody := "" }

/-- The `doc_html` message whose conversion succeeds in the
counterexample run. -/
def cexMsgOk : Msg :=
  { id := "ok1", date := 1, subject := "good", sender := "f", recip := "t",
    dateStr := "d1", plainBody := "y", htmlBody := "" }

/-- A conversion backend that raises for `cexMsgFail`'s rendered HTML
and converts anything else to a single paragraph; element insertion
never fails. -/
def cexHtmlEnv : HtmlEnv :=
  { convert := fun s =>
      if s = fullHtml cexMsgFail then Except.error "conv down"
      else Except.ok [Elem.para "OKBODY"],
    insertErr := fun _ => none }

/-- A conversion backend that always raises, with element insertion
always raising `boom` (exercises the element-level placeholder path). -/
def cexHenvBoom : HtmlEnv :=
  { convert := fun _ => Except.error "x",
    insertErr := fun _ => some "boom" }

/-- `true` iff the element is an `[insert failed: ...]` placeholder
paragraph. -/
def isInsertFailedPara : Elem → Bool
  | .para t => t.startsWith "[insert failed:"
  | _ => false

/-- Counterexample to C4 as stated: in a `doc_html` run where the
newest message's conversion raises, the run completes with only the
other message inserted, and the destination document contains no
placeholder failure marker in the failed message's place — the failed
message is skipped entirely. -/
theorem C4_counterexample :
    processMessagesToDoc "doc_html" wDenv [[cexMsgFail, cexMsgOk]] cexHtmlEnv
        { lastIso := some 0, docId := some "D", recentIds := none } []
      = RunOutcome.ok
          { lastIso := some 1, docId := some "D", recentIds := some ["ok1"] }
          [("D", [Elem.para "OKBODY"])] [cexMsgOk]
    ∧ [Elem.para "OKBODY"].all (fun e => !(isInsertFailedPara e)) = true
    ∧ cexMsgFail ∉ [cexMsgOk] := by
  exact ⟨by decide, by decide, by decide⟩

/-- Closed instance of `C4_per_message_failure` on the counterexample
environment: the run completes with exactly the successfully converted
message inserted, the failing message's step is the identity, and an
element whose insertion raises becomes a placeholder paragraph. -/
theorem C4_per_message_failure_witness :
    (∃ p' w' ins, processMessagesToDoc "doc_html" wDenv [[cexMsgFail, cexMsgOk]]
        cexHtmlEnv { lastIso := some 0, docId := some "D", recentIds := none } []
        = RunOutcome.ok p' w' ins
        ∧ ins = (selectedBatch wDenv [[cexMsgFail, cexMsgOk]]
            { lastIso := some 0, docId := some "D", recentIds := none }).filter
              (convertOk cexHtmlEnv))
    ∧ htmlStep cexHtmlEnv ([], [], 0, []) cexMsgFail = ([], [], 0, [])
    ∧ insertChildHtml cexHenvBoom [] Elem.pageBreak
        = [Elem.para "[insert failed: boom]"] := by
  have h := C4_per_message_failure wDenv [[cexMsgFail, cexMsgOk]] cexHtmlEnv
    { lastIso := some 0, docId := some "D", recentIds := none } []
  have h2 := C4_per_message_failure wDenv [] cexHenvBoom
    { lastIso := some 0, docId := some "D", recentIds := none } []
  exact ⟨h.1, h.2.1 ([], [], 0, []) cexMsgFail (by decide),
    h2.2.2 [] Elem.pageBreak "boom" rfl⟩

theorem saveRecentIds_subset (l : List String) : saveRecentIds_ l ⊆ l := by
  rw [saveRecentIds_]
  exact List.drop_subset _ _

/-- C10 -- In a `doc_html` run where message `m`'s per-message
insertion raises (conversion failure, caught and logged) while some
other selected message with a strictly greater timestamp converts
successfully, the watermark ends at or above `m`'s timestamp while
`m`'s id is not added to the recency set — so `m` can never be
selected by any later run whose watermark has not been reset below:
the failed message is permanently dropped, not retried.  (`hids`: no
other selected message shares `m`'s identifier.) -/
theorem C10_failed_message_dropped (denv : DriveEnv) (threads : List (List Msg))
    (henv : HtmlEnv) (props : Props) (world : World)
    (p' : Props) (w' : World) (ins : List Msg) (m m2 : Msg) (e : String) (ch : Body)
    (hrun : processMessagesToDoc "doc_html" denv threads henv props world
      = RunOutcome.ok p' w' ins)
    (hm : m ∈ selectedBatch denv threads props)
    (hm2 : m2 ∈ selectedBatch denv threads props)
    (hfail : henv.convert (fullHtml m) = Except.error e)
    (hok : henv.convert (fullHtml m2) = Except.ok ch)
    (hlt : m.date < m2.date)
    (hids : ∀ x ∈ selectedBatch denv threads props, x.id = m.id → x = m) :
    m.date ≤ p'.lastIso.getD 0
    ∧ m.id ∉ getRecentIds_ p'
    ∧ ∀ (threads2 : List (List Msg)) (w2 : Int) (r2 : List String),
        p'.lastIso.getD 0 ≤ w2 → m ∉ select threads2 w2 r2 := by
  rw [processMessagesToDoc] at hrun
  cases hsel : selectedBatch denv threads props with
  | nil =>
      rw [hsel] at hm
      exact absurd hm (List.not_mem_nil m)
  | cons m0 rest =>
      rw [hsel] at hrun
      rw [runBatch, if_neg (by decide : ¬ ("doc_html" = "doc_plain")),
        if_pos rfl] at hrun
      injection hrun with hp hw hi
      obtain ⟨extras, h1, h2, h3, h4, h5, h6⟩ := htmlFold_spec henv (m0 :: rest)
        (worldGet world (ensureConsolidatedDoc_ denv props).1)
        (getRecentIds_ (ensureConsolidatedDoc_ denv props).2.1)
        (props.lastIso.getD 0) []
      rw [List.nil_append] at h1
      have hm2e : m2 ∈ extras := by
        rw [h5]
        exact List.mem_filter.mpr ⟨hsel ▸ hm2, by rw [convertOk, hok]⟩
      have hW : p'.lastIso = some ((extras.map Msg.date).foldl max
          (props.lastIso.getD 0)) := by
        rw [← hp]
        rw [h3]
      have hWd : p'.lastIso.getD 0 = (extras.map Msg.date).foldl max
          (props.lastIso.getD 0) := by
        rw [hW, Option.getD_some]
      have hmW : m.date ≤ p'.lastIso.getD 0 := by
        rw [hWd]
        exact le_of_lt (lt_of_lt_of_le hlt
          (foldl_max_ge _ _ m2.date (List.mem_map_of_mem Msg.date hm2e)))
      refine ⟨hmW, ?_, ?_⟩
      · have hrecs : getRecentIds_ p' = saveRecentIds_
            (extras.foldl (fun a x => setAdd a x.id)
              (getRecentIds_ (ensureConsolidatedDoc_ denv props).2.1)) := by
          rw [← hp, getRecentIds_]
          simp only [Option.getD_some]
          rw [h4]
        intro hmem
        rw [hrecs] at hmem
        have hfold := saveRecentIds_subset _ hmem
        rcases (mem_foldl_setAdd extras _ m.id).mp hfold with hbase | ⟨x, hx, hxid⟩
        · exact absurd hbase (mem_select (show m ∈ select
            (threads.take MAX_MESSAGES_PER_RUN) (props.lastIso.getD 0)
            (getRecentIds_ (ensureConsolidatedDoc_ denv props).2.1) from hm)).2
        · have hxsel : x ∈ selectedBatch denv threads props := by
            rw [hsel]
            exact h2.mem hx
          have hxm : x = m := hids x hxsel hxid
          have hxok : convertOk henv x = true := (List.mem_filter.mp (h5 ▸ hx)).2
          rw [hxm, convertOk, hfail] at hxok
          exact absurd hxok (by simp)
      · intro threads2 w2 r2 hw2 hmem2
        have := (mem_select hmem2).1
        exact absurd this (not_lt.mpr (le_trans hmW hw2))

/-- The failed (older) message of the `C10` witness run. -/
def c10MsgFail : Msg :=
  { id := "f1", date := 1, subject := "bad", sender := "f", recip := "t",
    dateStr := "d1", plainBody := "x", htmlBody := "" }

/-- The successfully converted (newer) message of the `C10` witness
run. -/
def c10MsgOk : Msg :=
  { id := "ok2", date := 2, subject := "good", sender := "f", recip := "t",
    dateStr := "d2", plainBody := "y", htmlBody := "" }

/-- Conversion backend of the `C10` witness run: raises exactly for
`c10MsgFail`'s rendered HTML. -/
def c10Henv : HtmlEnv :=
  { convert := fun s =>
      if s = fullHtml c10MsgFail then Except.error "conv down"
      else Except.ok [Elem.para "B"],
    insertErr := fun _ => none }

/-- Closed instance of `C10_failed_message_dropped`: after a run where
the newest message succeeds and an older one fails, the failed
message's timestamp is under the watermark, its id is outside the
recency set, and it is never selected again. -/
theorem C10_failed_message_dropped_witness :
    c10MsgFail.date
      ≤ ({ lastIso := some 2, docId := some "D", recentIds := some ["ok2"] }
          : Props).lastIso.getD 0
    ∧ c10MsgFail.id ∉ getRecentIds_
        { lastIso := some 2, docId := some "D", recentIds := some ["ok2"] }
    ∧ ∀ (threads2 : List (List Msg)) (w2 : Int) (r2 : List String),
        ({ lastIso := some 2, docId := some "D", recentIds := some ["ok2"] }
          : Props).lastIso.getD 0 ≤ w2
        → c10MsgFail ∉ select threads2 w2 r2 :=
  C10_failed_message_dropped wDenv [[c10MsgFail, c10MsgOk]] c10Henv
    { lastIso := some 0, docId := some "D", recentIds := none } []
    { lastIso := some 2, docId := some "D", recentIds := some ["ok2"] }
    [("D", [Elem.para "B"])] [c10MsgOk] c10MsgFail c10MsgOk "conv down"
    [Elem.para "B"]
    (by decide) (by decide) (by decide) (by rfl) (by rfl) (by decide)
    (by decide)

end GmailToDocs
